import Mathlib

/-!
Verification of the polled 16550 UART driver (src/drivers/serial/uart.c).

The hardware is modelled as a read-response oracle: each register read
consumes the next value from a list of responses (the bytes the simulated
register window would return), and every register access is recorded in a
trace.  A busy-wait loop that exhausts the oracle blocks forever, which the
embedding renders as `none`.

`uart_gets` is additionally modelled at the byte level (its claims are about
the byte stream seen through `uart_getc`/`uart_putc`): the input is the list
of bytes `uart_getc` would deliver, the echo output is the list of bytes
handed to `uart_putc`, and buffer stores are recorded as (offset, byte)
pairs with an `Int` cursor mirroring the C pointer arithmetic `t - s`.
-/

/-- A single hardware register access: a read that returned a value, or a
write of a value, at a register offset. -/
inductive Access where
  | read : Nat → Nat → Access
  | write : Nat → Nat → Access
deriving DecidableEq

/-- Register offsets, as in uart.c. -/
def RHR : Nat := 0

def THR : Nat := 0

def DLL : Nat := 0

def IER : Nat := 1

def DLM : Nat := 1

def LCR : Nat := 3

def LSR : Nat := 5

/-- `LSR_RX_READY = 1 << 0`. -/
def LSR_RX_READY : Nat := 1 <<< 0

/-- `LSR_TX_IDLE = 1 << 5`. -/
def LSR_TX_IDLE : Nat := 1 <<< 5

/-- Hardware interaction state: the remaining read responses of the
simulated register window, and the trace of accesses performed so far. -/
structure HW where
  resps : List Nat
  trace : List Access
deriving DecidableEq

/-- `uart_read_reg(reg)`: consume the next oracle response (a byte, hence
masked to 8 bits) and record the read; `none` when the oracle is exhausted
(the driver would block forever on real hardware). -/
def uart_read_reg (reg : Nat) (hw : HW) : Option (Nat × HW) :=
  match hw.resps with
  | [] => none
  | v :: rest => some (v % 256, ⟨rest, hw.trace ++ [Access.read reg (v % 256)]⟩)

/-- `uart_write_reg(reg, v)`: record a byte-wide store to the register. -/
def uart_write_reg (reg v : Nat) (hw : HW) : HW :=
  ⟨hw.resps, hw.trace ++ [Access.write reg (v % 256)]⟩

/-- `uart_init()` from uart.c, line by line:
interrupts off, open the divisor latch via read-modify-write of LCR,
program DLL/DLM, overwrite LCR with the word format (latch closed),
then read-modify-write IER to enable the receive interrupt bit. -/
def uart_init (hw : HW) : Option HW :=
  let hw := uart_write_reg IER 0x00 hw
  match uart_read_reg LCR hw with
  | none => none
  | some (lcr, hw) =>
    let hw := uart_write_reg LCR (lcr ||| (1 <<< 7)) hw
    let hw := uart_write_reg DLL 0x03 hw
    let hw := uart_write_reg DLM 0x00 hw
    let lcr2 := 0
    let hw := uart_write_reg LCR (lcr2 ||| (3 <<< 0)) hw
    match uart_read_reg IER hw with
    | none => none
    | some (ier, hw) => some (uart_write_reg IER (ier ||| (1 <<< 0)) hw)

/-- The busy-wait loop of `uart_putc`: poll LSR until `LSR_TX_IDLE` is set,
then store the byte to THR.  Structural recursion on the remaining oracle
responses; `none` models spinning forever. -/
def uart_putc_go (ch : Nat) : List Nat → List Access → Option HW
  | [], _ => none
  | v :: rest, tr =>
    let lsr := v % 256
    if lsr &&& LSR_TX_IDLE = 0 then
      uart_putc_go ch rest (tr ++ [Access.read LSR lsr])
    else
      some (uart_write_reg THR ch ⟨rest, tr ++ [Access.read LSR lsr]⟩)

/-- `uart_putc(ch)` from uart.c. -/
def uart_putc (ch : Nat) (hw : HW) : Option HW :=
  uart_putc_go ch hw.resps hw.trace

/-- `uart_puts(s)` from uart.c: `while (*s) uart_putc(*s++);`.
The string is the byte content of memory at `s`; the loop exits only at a
zero byte, so running off the end of the supplied bytes is unspecified
(`none`), matching the C reading past the given memory. -/
def uart_puts (s : List Nat) (hw : HW) : Option HW :=
  match s with
  | [] => none
  | c :: rest =>
    if c % 256 = 0 then some hw
    else
      match uart_putc c hw with
      | none => none
      | some hw2 => uart_puts rest hw2

/-- Sequential `uart_putc` calls on each byte of a list (the spec-side
description of `put_string`: "calls put_byte for every character in s up to
its terminating sentinel, in order"). -/
def put_bytes (cs : List Nat) (hw : HW) : Option HW :=
  match cs with
  | [] => some hw
  | c :: rest =>
    match uart_putc c hw with
    | none => none
    | some hw2 => put_bytes rest hw2

/-- The busy-wait loop of `uart_getc`: poll LSR until `LSR_RX_READY` is
set, then read RHR and return its value. -/
def uart_getc_go : List Nat → List Access → Option (Nat × HW)
  | [], _ => none
  | v :: rest, tr =>
    let lsr := v % 256
    if lsr &&& LSR_RX_READY = 0 then
      uart_getc_go rest (tr ++ [Access.read LSR lsr])
    else
      match rest with
      | [] => none
      | d :: rest2 =>
        some (d % 256, ⟨rest2, tr ++ [Access.read LSR lsr, Access.read RHR (d % 256)]⟩)

/-- `uart_getc()` from uart.c. -/
def uart_getc (hw : HW) : Option (Nat × HW) :=
  uart_getc_go hw.resps hw.trace

/-- Replaying a trace's writes onto a register file (offset → byte). -/
def applyAcc (regs : Nat → Nat) : Access → (Nat → Nat)
  | Access.read _ _ => regs
  | Access.write off v => fun o => if o = off then v else regs o

/-- Replay a whole access trace onto a register file. -/
def applyTrace (regs : Nat → Nat) (tr : List Access) : Nat → Nat :=
  tr.foldl applyAcc regs

/-- Is this access a write to the offset-0 data register (THR)? -/
def isDataWrite : Access → Bool
  | Access.write 0 _ => true
  | _ => false

/-- Is this access a read of the offset-0 data register (RHR)? -/
def isDataRead : Access → Bool
  | Access.read 0 _ => true
  | _ => false

/-- Observable outcome of one `uart_gets` call at the byte level:
the buffer stores performed, as (offset from buffer start, byte) pairs in
program order; the returned count `t - s`; the bytes echoed through
`uart_putc`, in order; and the input bytes left unconsumed. -/
structure GetsResult where
  writes : List (Int × Nat)
  count : Int
  echo : List Nat
  rest : List Nat
deriving DecidableEq

/-- Prepend bytes to a result's echo output. -/
def addEcho (e : List Nat) (r : GetsResult) : GetsResult :=
  ⟨r.writes, r.count, e ++ r.echo, r.rest⟩

/-- Prepend a buffer store and its echo to a result. -/
def addStore (t : Int) (ch : Nat) (r : GetsResult) : GetsResult :=
  ⟨(t, ch) :: r.writes, r.count, ch :: r.echo, r.rest⟩

/-- The loop of `uart_gets` from uart.c, at the byte level.  `t` is the
cursor offset `t - s` (an `Int`, mirroring the C pointer difference).
Each iteration consumes the byte `uart_getc` delivers:
carriage return echoes `\r\n`, stores the null terminator at the cursor and
returns the cursor as the count; backspace/DEL, when the cursor is strictly
past the start, moves it back and echoes the `"\b \b"` erase sequence
(`uart_puts` on that three-byte string) and otherwise does nothing; any
other byte is echoed, stored at the cursor, and the cursor advances.
`none` models an input that never supplies a carriage return. -/
def uart_gets_go (t : Int) : List Nat → Option GetsResult
  | [] => none
  | b :: rest =>
    let ch := b % 256
    if ch = 13 then
      some ⟨[(t, 0)], t, [13, 10], rest⟩
    else if ch = 8 ∨ ch = 127 then
      if 0 < t then Option.map (addEcho [8, 32, 8]) (uart_gets_go (t - 1) rest)
      else uart_gets_go t rest
    else
      Option.map (addStore t ch) (uart_gets_go (t + 1) rest)

/-- `uart_gets(s)` from uart.c: the loop started with the cursor at the
buffer start. -/
def uart_gets (input : List Nat) : Option GetsResult :=
  uart_gets_go 0 input

/-- The byte stored at buffer offset `i` after a list of stores (the last
store to `i` wins), or `none` if `i` was never stored to. -/
def memAfter (ws : List (Int × Nat)) (i : Int) : Option Nat :=
  Option.map Prod.snd (ws.reverse.find? (fun w => w.1 = i))

/-- Map `0x7F` to `'\b'` (byte level), identity on every other byte. -/
def delToBs (b : Nat) : Nat :=
  if b % 256 = 127 then 8 else b

/-- A byte or-ed with a byte-sized mask stays a byte. -/
theorem or_byte_mod (a b : Nat) (hb : b < 256) :
    ((a % 256) ||| b) % 256 = (a % 256) ||| b :=
  Nat.mod_eq_of_lt (Nat.or_lt_two_pow (n := 8) (Nat.mod_lt a (by norm_num)) hb)

/-- Or-ing in bit 0 sets bit 0. -/
theorem or_one_testBit_zero (a : Nat) : (a ||| 1).testBit 0 = true := by
  simp [Nat.testBit_or]

/-- Or-ing in bit 0 leaves every other bit unchanged. -/
theorem or_one_testBit_ne (a i : Nat) (h : i ≠ 0) :
    (a ||| 1).testBit i = a.testBit i := by
  have h1 : (1 : Nat).testBit i = false := by
    cases i with
    | zero => exact absurd rfl h
    | succ n => simp [Nat.testBit_succ]
  simp [Nat.testBit_or, h1]

/-- Evaluating `uart_init` on a window whose LCR and IER read back as
`lcrv` and `ierv`: the full access trace. -/
theorem uart_init_eq (lcrv ierv : Nat) (rest : List Nat) :
    uart_init ⟨lcrv :: ierv :: rest, []⟩ =
      some ⟨rest,
        [Access.write IER 0x00,
         Access.read LCR (lcrv % 256),
         Access.write LCR ((lcrv % 256) ||| 0x80),
         Access.write DLL 0x03,
         Access.write DLM 0x00,
         Access.write LCR 0x03,
         Access.read IER (ierv % 256),
         Access.write IER ((ierv % 256) ||| 0x01)]⟩ := by
  simp [uart_init, uart_read_reg, uart_write_reg, or_byte_mod, IER, LCR, DLL, DLM]

/-- C1: on a register window whose LCR and IER read back as `lcrv` and
`ierv`, `uart_init` performs exactly the eight accesses of the documented
sequence, in order and nothing else: write IER 0x00; read LCR; write LCR
(read | 0x80); write DLL 0x03; write DLM 0x00; write LCR 0x03; read IER;
write IER (read | 0x01).  The final IER value has bit 0 set and agrees with
the just-read IER value on every other bit. -/
theorem c1_init_access_sequence (lcrv ierv : Nat) (rest : List Nat) :
    uart_init ⟨lcrv :: ierv :: rest, []⟩ =
      some ⟨rest,
        [Access.write IER 0x00,
         Access.read LCR (lcrv % 256),
         Access.write LCR ((lcrv % 256) ||| 0x80),
         Access.write DLL 0x03,
         Access.write DLM 0x00,
         Access.write LCR 0x03,
         Access.read IER (ierv % 256),
         Access.write IER ((ierv % 256) ||| 0x01)]⟩ ∧
    ((ierv % 256) ||| 0x01).testBit 0 = true ∧
    ∀ i, i ≠ 0 → ((ierv % 256) ||| 0x01).testBit i = (ierv % 256).testBit i :=
  ⟨uart_init_eq lcrv ierv rest, or_one_testBit_zero _, fun i hi => or_one_testBit_ne _ i hi⟩

/-- Witness for C1 at the concrete pre-state LCR = 23, IER = 66. -/
theorem c1_init_access_sequence_witness :
    uart_init ⟨[23, 66], []⟩ =
      some ⟨[],
        [Access.write IER 0x00,
         Access.read LCR (23 % 256),
         Access.write LCR ((23 % 256) ||| 0x80),
         Access.write DLL 0x03,
         Access.write DLM 0x00,
         Access.write LCR 0x03,
         Access.read IER (66 % 256),
         Access.write IER ((66 % 256) ||| 0x01)]⟩ ∧
    (((66 % 256 : Nat) ||| 0x01).testBit 0 = true ∧
     (3 ≠ 0 ∧ ((66 % 256 : Nat) ||| 0x01).testBit 3 = ((66 : Nat) % 256).testBit 3)) :=
  ⟨(c1_init_access_sequence 23 66 []).1,
   (c1_init_access_sequence 23 66 []).2.1,
   by decide,
   (c1_init_access_sequence 23 66 []).2.2 3 (by decide)⟩

/-- Shape of a successful `uart_putc` busy-wait: some LSR polls that all
read transmit-not-ready, then one LSR poll reading transmit-ready,
then the single THR store of the byte. -/
theorem uart_putc_go_shape (ch : Nat) (resps : List Nat) (tr : List Access) (hw' : HW)
    (h : uart_putc_go ch resps tr = some hw') :
    ∃ (pre : List Nat) (v : Nat),
      hw'.trace = tr ++ pre.map (Access.read LSR) ++
        [Access.read LSR v, Access.write THR (ch % 256)] ∧
      v &&& LSR_TX_IDLE ≠ 0 ∧ ∀ u ∈ pre, u &&& LSR_TX_IDLE = 0 := by
  induction resps generalizing tr with
  | nil => simp [uart_putc_go] at h
  | cons v rest ih =>
    rw [uart_putc_go] at h
    by_cases hb : (v % 256) &&& LSR_TX_IDLE = 0
    · rw [if_pos hb] at h
      obtain ⟨pre, w, htr, hw, hpre⟩ := ih _ h
      refine ⟨v % 256 :: pre, w, ?_, hw, ?_⟩
      · simpa [List.append_assoc] using htr
      · intro u hu
        rcases List.mem_cons.mp hu with rfl | hu2
        · exact hb
        · exact hpre u hu2
    · rw [if_neg hb] at h
      obtain rfl := Option.some.inj h.symm
      exact ⟨[], v % 256, by simp [uart_write_reg], hb, by simp⟩

/-- C4: a successful `uart_putc(ch)` call never writes the data register
while LSR bit 5 reads 0 — every access before the store is an LSR poll
reading transmit-not-ready — and once an LSR read has bit 5 set it writes
exactly the byte `ch` to THR; the data register is written exactly once. -/
theorem c4_putc_waits_then_writes_once (ch : Nat) (resps : List Nat) (hw' : HW)
    (h : uart_putc ch ⟨resps, []⟩ = some hw') :
    ∃ (pre : List Nat) (v : Nat),
      hw'.trace = pre.map (Access.read LSR) ++
        [Access.read LSR v, Access.write THR (ch % 256)] ∧
      v &&& LSR_TX_IDLE ≠ 0 ∧
      (∀ u ∈ pre, u &&& LSR_TX_IDLE = 0) ∧
      hw'.trace.filter isDataWrite = [Access.write THR (ch % 256)] := by
  obtain ⟨pre, v, htr, hv, hpre⟩ := uart_putc_go_shape ch resps [] hw' h
  refine ⟨pre, v, by simpa using htr, hv, hpre, ?_⟩
  rw [htr]
  have hreads : ∀ l : List Nat, (l.map (Access.read LSR)).filter isDataWrite = [] := by
    intro l
    induction l with
    | nil => rfl
    | cons a l ih => simp [List.filter, isDataWrite, ih]
  simp [List.filter_append, hreads, List.filter, isDataWrite, THR, LSR]

/-- Witness for C4: two polls (first not ready, then ready), then the store
of byte 65. -/
theorem c4_putc_waits_then_writes_once_witness :
    ∃ (pre : List Nat) (v : Nat),
      (HW.mk [] [Access.read 5 0, Access.read 5 32, Access.write 0 65]).trace =
        pre.map (Access.read LSR) ++
          [Access.read LSR v, Access.write THR (65 % 256)] ∧
      v &&& LSR_TX_IDLE ≠ 0 ∧
      (∀ u ∈ pre, u &&& LSR_TX_IDLE = 0) ∧
      (HW.mk [] [Access.read 5 0, Access.read 5 32, Access.write 0 65]).trace.filter
          isDataWrite = [Access.write THR (65 % 256)] :=
  c4_putc_waits_then_writes_once 65 [0, 32] ⟨[], [Access.read 5 0, Access.read 5 32, Access.write 0 65]⟩ (by decide)

/-- One-step unfolding of the `uart_getc` poll loop. -/
theorem uart_getc_go_cons (v : Nat) (rest : List Nat) (tr : List Access) :
    uart_getc_go (v :: rest) tr =
      (if (v % 256) &&& LSR_RX_READY = 0 then
        uart_getc_go rest (tr ++ [Access.read LSR (v % 256)])
      else
        match rest with
        | [] => none
        | d :: rest2 =>
          some (d % 256,
            ⟨rest2, tr ++ [Access.read LSR (v % 256), Access.read RHR (d % 256)]⟩)) := rfl

/-- Shape of a successful `uart_getc` busy-wait: some LSR polls that all
read receive-not-ready, then one LSR poll reading receive-ready, then the
single RHR read whose value is the value returned. -/
theorem uart_getc_go_shape (resps : List Nat) (tr : List Access) (res : Nat × HW)
    (h : uart_getc_go resps tr = some res) :
    ∃ (pre : List Nat) (v : Nat),
      res.2.trace = tr ++ pre.map (Access.read LSR) ++
        [Access.read LSR v, Access.read RHR res.1] ∧
      v &&& LSR_RX_READY ≠ 0 ∧ ∀ u ∈ pre, u &&& LSR_RX_READY = 0 := by
  induction resps generalizing tr with
  | nil => simp [uart_getc_go] at h
  | cons v rest ih =>
    rw [uart_getc_go_cons] at h
    by_cases hb : (v % 256) &&& LSR_RX_READY = 0
    · rw [if_pos hb] at h
      obtain ⟨pre, w, htr, hw, hpre⟩ := ih _ h
      refine ⟨v % 256 :: pre, w, ?_, hw, ?_⟩
      · simpa [List.append_assoc] using htr
      · intro u hu
        rcases List.mem_cons.mp hu with rfl | hu2
        · exact hb
        · exact hpre u hu2
    · rw [if_neg hb] at h
      cases rest with
      | nil => simp at h
      | cons d rest2 =>
        obtain rfl := Option.some.inj h
        exact ⟨[], v % 256, by simp, hb, by simp⟩

/-- C5: a successful `uart_getc()` call never reads the data register while
LSR bit 0 reads 0 — every access before the data read is an LSR poll
reading receive-not-ready — and once an LSR read has bit 0 set it reads RHR
exactly once and returns exactly the value that read produced. -/
theorem c5_getc_waits_then_reads_once (resps : List Nat) (res : Nat × HW)
    (h : uart_getc ⟨resps, []⟩ = some res) :
    ∃ (pre : List Nat) (v : Nat),
      res.2.trace = pre.map (Access.read LSR) ++
        [Access.read LSR v, Access.read RHR res.1] ∧
      v &&& LSR_RX_READY ≠ 0 ∧
      (∀ u ∈ pre, u &&& LSR_RX_READY = 0) ∧
      res.2.trace.filter isDataRead = [Access.read RHR res.1] := by
  obtain ⟨pre, v, htr, hv, hpre⟩ := uart_getc_go_shape resps [] res h
  refine ⟨pre, v, by simpa using htr, hv, hpre, ?_⟩
  rw [htr]
  have hreads : ∀ l : List Nat, (l.map (Access.read LSR)).filter isDataRead = [] := by
    intro l
    induction l with
    | nil => rfl
    | cons a l ih => simp [List.filter, isDataRead, ih, LSR]
  simp [List.filter_append, hreads, List.filter, isDataRead, RHR, LSR]

/-- Witness for C5: two polls (first not ready, then ready), then the data
read returning byte 77. -/
theorem c5_getc_waits_then_reads_once_witness :
    ∃ (pre : List Nat) (v : Nat),
      ((77 : Nat), HW.mk [] [Access.read 5 0, Access.read 5 1, Access.read 0 77]).2.trace =
        pre.map (Access.read LSR) ++
          [Access.read LSR v,
           Access.read RHR ((77 : Nat), HW.mk [] [Access.read 5 0, Access.read 5 1, Access.read 0 77]).1] ∧
      v &&& LSR_RX_READY ≠ 0 ∧
      (∀ u ∈ pre, u &&& LSR_RX_READY = 0) ∧
      ((77 : Nat), HW.mk [] [Access.read 5 0, Access.read 5 1, Access.read 0 77]).2.trace.filter
          isDataRead =
        [Access.read RHR ((77 : Nat), HW.mk [] [Access.read 5 0, Access.read 5 1, Access.read 0 77]).1] :=
  c5_getc_waits_then_reads_once [0, 1, 77]
    (77, ⟨[], [Access.read 5 0, Access.read 5 1, Access.read 0 77]⟩) (by decide)

/-- Replaying a trace split replays the pieces in order. -/
theorem applyTrace_append (regs : Nat → Nat) (t1 t2 : List Access) :
    applyTrace regs (t1 ++ t2) = applyTrace (applyTrace regs t1) t2 :=
  List.foldl_append applyAcc regs t1 t2

/-- Reads leave the register file untouched. -/
theorem applyTrace_reads (regs : Nat → Nat) (off : Nat) (l : List Nat) :
    applyTrace regs (l.map (Access.read off)) = regs := by
  induction l with
  | nil => rfl
  | cons a l ih => simpa [applyTrace, applyAcc] using ih

/-- C6: after `uart_init` the Line Control register holds exactly 0x03 —
in particular bit 7, the divisor latch access bit, is clear — whatever
values the two reads returned, because the final LCR write is a plain
overwrite with 0x03; and neither `uart_putc` nor `uart_getc` ever writes
LCR, so after init their offset-0 accesses keep addressing the data
registers, never the divisor latch. -/
theorem c6_dlab_closed_after_init :
    (∀ (lcrv ierv : Nat) (rest : List Nat) (hw' : HW),
      uart_init ⟨lcrv :: ierv :: rest, []⟩ = some hw' →
      ∀ regs : Nat → Nat,
        applyTrace regs hw'.trace LCR = 0x03 ∧
        (applyTrace regs hw'.trace LCR).testBit 7 = false) ∧
    (∀ (ch : Nat) (resps : List Nat) (hw' : HW),
      uart_putc ch ⟨resps, []⟩ = some hw' →
      ∀ regs : Nat → Nat, applyTrace regs hw'.trace LCR = regs LCR) ∧
    (∀ (resps : List Nat) (res : Nat × HW),
      uart_getc ⟨resps, []⟩ = some res →
      ∀ regs : Nat → Nat, applyTrace regs res.2.trace LCR = regs LCR) := by
  refine ⟨?_, ?_, ?_⟩
  · intro lcrv ierv rest hw' h regs
    rw [uart_init_eq] at h
    obtain rfl := Option.some.inj h
    constructor
    · simp [applyTrace, applyAcc, IER, LCR, DLL, DLM]
    · simp [applyTrace, applyAcc, IER, LCR, DLL, DLM]
      decide
  · intro ch resps hw' h regs
    obtain ⟨pre, v, htr, -, -⟩ := uart_putc_go_shape ch resps [] hw' h
    rw [htr]
    simp only [List.nil_append]
    rw [show [Access.read LSR v, Access.write THR (ch % 256)] =
          [Access.read LSR v] ++ [Access.write THR (ch % 256)] from rfl,
        ← List.append_assoc]
    rw [applyTrace_append]
    have : applyTrace regs (pre.map (Access.read LSR) ++ [Access.read LSR v]) = regs := by
      rw [show [Access.read LSR v] = [v].map (Access.read LSR) from rfl, ← List.map_append,
        applyTrace_reads]
    rw [this]
    simp [applyTrace, applyAcc, THR, LCR]
  · intro resps res h regs
    obtain ⟨pre, v, htr, -, -⟩ := uart_getc_go_shape resps [] res h
    rw [htr]
    simp only [List.nil_append]
    rw [show [Access.read LSR v, Access.read RHR res.1] =
          [Access.read LSR v] ++ [Access.read RHR res.1] from rfl,
        ← List.append_assoc]
    rw [applyTrace_append]
    have : applyTrace regs (pre.map (Access.read LSR) ++ [Access.read LSR v]) = regs := by
      rw [show [Access.read LSR v] = [v].map (Access.read LSR) from rfl, ← List.map_append,
        applyTrace_reads]
    rw [this]
    simp [applyTrace, applyAcc]

/-- Witness for C6: init on LCR = 23 / IER = 66, a putc of byte 65 after
one not-ready poll, and a getc of byte 77, each replayed onto the all-zero
register file. -/
theorem c6_dlab_closed_after_init_witness :
    (applyTrace (fun _ => 0)
        (HW.mk []
          [Access.write 1 0, Access.read 3 23, Access.write 3 151, Access.write 0 3,
           Access.write 1 0, Access.write 3 3, Access.read 1 66, Access.write 1 67]).trace
        LCR = 0x03 ∧
      (applyTrace (fun _ => 0)
          (HW.mk []
            [Access.write 1 0, Access.read 3 23, Access.write 3 151, Access.write 0 3,
             Access.write 1 0, Access.write 3 3, Access.read 1 66, Access.write 1 67]).trace
          LCR).testBit 7 = false) ∧
    applyTrace (fun _ => 0)
        (HW.mk [] [Access.read 5 0, Access.read 5 32, Access.write 0 65]).trace LCR =
      (fun _ => 0) LCR ∧
    applyTrace (fun _ => 0)
        ((77 : Nat), HW.mk [] [Access.read 5 1, Access.read 0 77]).2.trace LCR =
      (fun _ => 0) LCR :=
  ⟨c6_dlab_closed_after_init.1 23 66 []
      ⟨[], [Access.write 1 0, Access.read 3 23, Access.write 3 151, Access.write 0 3,
            Access.write 1 0, Access.write 3 3, Access.read 1 66, Access.write 1 67]⟩
      (by decide) (fun _ => 0),
   c6_dlab_closed_after_init.2.1 65 [0, 32]
      ⟨[], [Access.read 5 0, Access.read 5 32, Access.write 0 65]⟩ (by decide) (fun _ => 0),
   c6_dlab_closed_after_init.2.2 [1, 77]
      (77, ⟨[], [Access.read 5 1, Access.read 0 77]⟩) (by decide) (fun _ => 0)⟩

/-- One-step unfolding of `uart_puts`. -/
theorem uart_puts_cons (c : Nat) (rest : List Nat) (hw : HW) :
    uart_puts (c :: rest) hw =
      (if c % 256 = 0 then some hw
       else
         match uart_putc c hw with
         | none => none
         | some hw2 => uart_puts rest hw2) := rfl

/-- One-step unfolding of `put_bytes`. -/
theorem put_bytes_cons (c : Nat) (rest : List Nat) (hw : HW) :
    put_bytes (c :: rest) hw =
      (match uart_putc c hw with
       | none => none
       | some hw2 => put_bytes rest hw2) := rfl

/-- C7: when the byte sequence holds a null terminator, `uart_puts` is
observationally equivalent — same oracle consumption, same hardware access
trace — to calling `uart_putc` on each byte before the terminator, in
order, and nothing else; in particular on "AB\0" it is `uart_putc 'A'`
followed by `uart_putc 'B'`. -/
theorem c7_puts_is_sequential_putc :
    (∀ (s : List Nat) (hw : HW), (∃ c ∈ s, c % 256 = 0) →
      uart_puts s hw = put_bytes (s.takeWhile (fun c => c % 256 != 0)) hw) ∧
    (∀ hw : HW,
      uart_puts [65, 66, 0] hw = Option.bind (uart_putc 65 hw) (uart_putc 66)) := by
  constructor
  · intro s
    induction s with
    | nil =>
      intro hw h
      simp at h
    | cons c rest ih =>
      intro hw h
      by_cases hc : c % 256 = 0
      · rw [uart_puts_cons, List.takeWhile_cons]
        simp [hc, put_bytes]
      · have hrest : ∃ x ∈ rest, x % 256 = 0 := by
          obtain ⟨x, hx, hx0⟩ := h
          rcases List.mem_cons.mp hx with rfl | hx2
          · exact absurd hx0 hc
          · exact ⟨x, hx2, hx0⟩
        rw [uart_puts_cons, List.takeWhile_cons]
        have hbne : (c % 256 != 0) = true := by simpa using hc
        rw [hbne]
        rw [if_neg hc, if_pos rfl, put_bytes_cons]
        cases hputc : uart_putc c hw with
        | none => rfl
        | some hw2 => exact ih hw2 hrest
  · intro hw
    rw [uart_puts_cons]
    rw [if_neg (by decide : ¬((65 : Nat) % 256 = 0))]
    cases h1 : uart_putc 65 hw with
    | none => rfl
    | some hwA =>
      show uart_puts [66, 0] hwA = uart_putc 66 hwA
      rw [uart_puts_cons]
      rw [if_neg (by decide : ¬((66 : Nat) % 256 = 0))]
      cases h2 : uart_putc 66 hwA with
      | none => rfl
      | some hwB => rfl

/-- Witness for C7: "AB\0" against a window whose LSR always reads
transmit-ready. -/
theorem c7_puts_is_sequential_putc_witness :
    uart_puts [65, 66, 0] ⟨[32, 32], []⟩ =
      put_bytes (List.takeWhile (fun c => c % 256 != 0) [65, 66, 0]) ⟨[32, 32], []⟩ :=
  c7_puts_is_sequential_putc.1 [65, 66, 0] ⟨[32, 32], []⟩ ⟨0, by decide, by decide⟩

/-- One-step unfolding of the `uart_gets` loop. -/
theorem uart_gets_go_cons (t : Int) (b : Nat) (rest : List Nat) :
    uart_gets_go t (b :: rest) =
      (if b % 256 = 13 then some ⟨[(t, 0)], t, [13, 10], rest⟩
       else if b % 256 = 8 ∨ b % 256 = 127 then
         if 0 < t then Option.map (addEcho [8, 32, 8]) (uart_gets_go (t - 1) rest)
         else uart_gets_go t rest
       else Option.map (addStore t (b % 256)) (uart_gets_go (t + 1) rest)) := rfl

/-- Running the `uart_gets` loop on a prefix free of carriage returns
followed by a carriage return: the loop consumes exactly through the
carriage return, the echo ends with `\r\n`, and the last buffer store puts
the null terminator at the offset that is returned as the count. -/
theorem uart_gets_go_first_cr (pre : List Nat) (t : Int) (b : Nat) (rest : List Nat)
    (hb : b % 256 = 13) (hpre : ∀ c ∈ pre, c % 256 ≠ 13) :
    ∃ r : GetsResult,
      uart_gets_go t (pre ++ b :: rest) = some r ∧
      r.rest = rest ∧
      (∃ e : List Nat, r.echo = e ++ [13, 10]) ∧
      (∃ w : List (Int × Nat), r.writes = w ++ [(r.count, 0)]) := by
  induction pre generalizing t with
  | nil =>
    refine ⟨⟨[(t, 0)], t, [13, 10], rest⟩, ?_, rfl, ⟨[], rfl⟩, ⟨[], rfl⟩⟩
    rw [List.nil_append, uart_gets_go_cons, if_pos hb]
  | cons c pre ih =>
    have hc : c % 256 ≠ 13 := hpre c (by simp)
    have hpre2 : ∀ x ∈ pre, x % 256 ≠ 13 := fun x hx => hpre x (by simp [hx])
    rw [List.cons_append, uart_gets_go_cons, if_neg hc]
    by_cases hbd : c % 256 = 8 ∨ c % 256 = 127
    · rw [if_pos hbd]
      by_cases ht : 0 < t
      · rw [if_pos ht]
        obtain ⟨r, hr, h1, h2, h3⟩ := ih (t - 1) hpre2
        refine ⟨addEcho [8, 32, 8] r, by rw [hr]; rfl, h1, ?_, ?_⟩
        · obtain ⟨e, he⟩ := h2
          exact ⟨[8, 32, 8] ++ e, by simp [addEcho, he]⟩
        · obtain ⟨w, hw⟩ := h3
          exact ⟨w, by simpa [addEcho] using hw⟩
      · rw [if_neg ht]
        exact ih t hpre2
    · rw [if_neg hbd]
      obtain ⟨r, hr, h1, h2, h3⟩ := ih (t + 1) hpre2
      refine ⟨addStore t (c % 256) r, by rw [hr]; rfl, h1, ?_, ?_⟩
      · obtain ⟨e, he⟩ := h2
        exact ⟨(c % 256) :: e, by simp [addStore, he]⟩
      · obtain ⟨w, hw⟩ := h3
        exact ⟨(t, c % 256) :: w, by simp [addStore, hw]⟩

/-- C2: on any input whose first carriage return sits after a CR-free
prefix, `uart_gets` consumes exactly through that carriage return and
stops, echoes `\r` `\n` last, and its final buffer store is a null
terminator at the offset it returns as the count; on `H i \r` it stores
"Hi" plus the terminator, returns 2, and echoes exactly `H i \r \n`. -/
theorem c2_gets_stops_at_first_cr :
    (∀ (pre : List Nat) (b : Nat) (rest : List Nat),
      b % 256 = 13 → (∀ c ∈ pre, c % 256 ≠ 13) →
      ∃ r : GetsResult,
        uart_gets (pre ++ b :: rest) = some r ∧
        r.rest = rest ∧
        (∃ e : List Nat, r.echo = e ++ [13, 10]) ∧
        (∃ w : List (Int × Nat), r.writes = w ++ [(r.count, 0)])) ∧
    uart_gets [72, 105, 13] =
      some ⟨[(0, 72), (1, 105), (2, 0)], 2, [72, 105, 13, 10], []⟩ :=
  ⟨fun pre b rest hb hpre => uart_gets_go_first_cr pre 0 b rest hb hpre, by decide⟩

/-- Witness for C2: the prefix `H i` before the carriage return. -/
theorem c2_gets_stops_at_first_cr_witness :
    ∃ r : GetsResult,
      uart_gets ([72, 105] ++ 13 :: []) = some r ∧
      r.rest = [] ∧
      (∃ e : List Nat, r.echo = e ++ [13, 10]) ∧
      (∃ w : List (Int × Nat), r.writes = w ++ [(r.count, 0)]) :=
  c2_gets_stops_at_first_cr.1 [72, 105] 13 [] (by decide) (by decide)

/-- Replacing every DEL byte of the input by backspace changes nothing the
`uart_gets` loop does: same stores, same count, same echo, and the leftover
input is the replaced leftover. -/
theorem uart_gets_go_delToBs (input : List Nat) (t : Int) :
    uart_gets_go t (input.map delToBs) =
      Option.map (fun r : GetsResult => ⟨r.writes, r.count, r.echo, r.rest.map delToBs⟩)
        (uart_gets_go t input) := by
  induction input generalizing t with
  | nil => rfl
  | cons b rest ih =>
    rw [List.map_cons, uart_gets_go_cons, uart_gets_go_cons]
    by_cases h127 : b % 256 = 127
    · have hd : delToBs b = 8 := by simp [delToBs, h127]
      rw [hd]
      rw [if_neg (by decide : ¬((8 : Nat) % 256 = 13)),
        if_pos (by decide : (8 : Nat) % 256 = 8 ∨ (8 : Nat) % 256 = 127)]
      rw [if_neg (show ¬b % 256 = 13 by rw [h127]; decide), if_pos (Or.inr h127)]
      by_cases ht : 0 < t
      · rw [if_pos ht, if_pos ht, ih (t - 1), Option.map_map, Option.map_map]
        rfl
      · rw [if_neg ht, if_neg ht]
        exact ih t
    · have hd : delToBs b = b := by simp [delToBs, h127]
      rw [hd]
      by_cases h13 : b % 256 = 13
      · rw [if_pos h13, if_pos h13]
        rfl
      · rw [if_neg h13, if_neg h13]
        by_cases hbd : b % 256 = 8 ∨ b % 256 = 127
        · rw [if_pos hbd, if_pos hbd]
          by_cases ht : 0 < t
          · rw [if_pos ht, if_pos ht, ih (t - 1), Option.map_map, Option.map_map]
            rfl
          · rw [if_neg ht, if_neg ht]
            exact ih t
        · rw [if_neg hbd, if_neg hbd, ih (t + 1), Option.map_map, Option.map_map]
          rfl

/-- C3: backspace (0x08) and DEL (0x7F) are handled identically by the
`uart_gets` loop: with the cursor strictly past the buffer start either
byte moves the cursor back one and echoes backspace-space-backspace; at the
buffer start either byte does nothing at all.  Consequently replacing every
DEL in the input by backspace leaves stores, count and echo unchanged;
`A DEL \r` and `A \b \r` coincide. -/
theorem c3_backspace_del_identical :
    (∀ (t : Int) (rest : List Nat),
      uart_gets_go t ((8 : Nat) :: rest) = uart_gets_go t ((127 : Nat) :: rest)) ∧
    (∀ (t : Int) (b : Nat) (rest : List Nat), b % 256 = 8 ∨ b % 256 = 127 →
      (0 < t → uart_gets_go t (b :: rest) =
        Option.map (addEcho [8, 32, 8]) (uart_gets_go (t - 1) rest)) ∧
      (¬0 < t → uart_gets_go t (b :: rest) = uart_gets_go t rest)) ∧
    (∀ input : List Nat,
      Option.map (fun r : GetsResult => (r.writes, r.count, r.echo))
          (uart_gets (input.map delToBs)) =
        Option.map (fun r : GetsResult => (r.writes, r.count, r.echo)) (uart_gets input)) ∧
    uart_gets [65, 127, 13] = uart_gets [65, 8, 13] := by
  refine ⟨fun t rest => rfl, ?_, ?_, by decide⟩
  · intro t b rest hbd
    have hb13 : ¬b % 256 = 13 := by
      rcases hbd with h | h <;> rw [h] <;> decide
    constructor
    · intro ht
      rw [uart_gets_go_cons, if_neg hb13, if_pos hbd, if_pos ht]
    · intro ht
      rw [uart_gets_go_cons, if_neg hb13, if_pos hbd, if_neg ht]
  · intro input
    rw [uart_gets, uart_gets, uart_gets_go_delToBs, Option.map_map]
    rfl

/-- Witness for C3: DEL at cursor 1 erases, DEL at cursor 0 is ignored. -/
theorem c3_backspace_del_identical_witness :
    (uart_gets_go 1 ((127 : Nat) :: [13]) =
      Option.map (addEcho [8, 32, 8]) (uart_gets_go (1 - 1) [13])) ∧
    uart_gets_go 0 ((127 : Nat) :: [13]) = uart_gets_go 0 [13] :=
  ⟨(c3_backspace_del_identical.2.1 1 127 [13] (by decide)).1 (by decide),
   (c3_backspace_del_identical.2.1 0 127 [13] (by decide)).2 (by decide)⟩

/-- C8: a line feed (0x0A) is an ordinary byte to `uart_gets`: echoed
verbatim, stored at the cursor, cursor advanced — it does not terminate the
line; on input `\n \r` the line feed is stored and only the carriage return
ends the line. -/
theorem c8_linefeed_is_ordinary :
    (∀ (t : Int) (rest : List Nat),
      uart_gets_go t ((10 : Nat) :: rest) =
        Option.map (addStore t 10) (uart_gets_go (t + 1) rest)) ∧
    uart_gets [10, 13] = some ⟨[(0, 10), (1, 0)], 1, [10, 13, 10], []⟩ :=
  ⟨fun t rest => rfl, by decide⟩

/-- C9: a NUL byte (0x00) is an ordinary byte to `uart_gets`: echoed,
stored at the cursor, cursor advanced; hence the returned count can exceed
the offset of the first null stored in the buffer — on input `0x00 A \r`
the count is 2 while offset 0 already holds a null. -/
theorem c9_nul_is_ordinary :
    (∀ (t : Int) (rest : List Nat),
      uart_gets_go t ((0 : Nat) :: rest) =
        Option.map (addStore t 0) (uart_gets_go (t + 1) rest)) ∧
    (∃ r : GetsResult,
      uart_gets [0, 65, 13] = some r ∧
      r.count = 2 ∧ memAfter r.writes 0 = some 0 ∧ (0 : Int) < r.count) :=
  ⟨fun t rest => rfl,
   ⟨⟨[(0, 0), (1, 65), (2, 0)], 2, [0, 65, 13, 10], []⟩,
    by decide, by decide, by decide, by decide⟩⟩

/-- Every store of a `uart_gets` run started at a non-negative cursor lands
at a non-negative offset, and the returned count is non-negative: the
`t > s` guard keeps the cursor from moving below the buffer start. -/
theorem uart_gets_go_nonneg (input : List Nat) :
    ∀ (t : Int) (r : GetsResult), 0 ≤ t → uart_gets_go t input = some r →
      (∀ w ∈ r.writes, 0 ≤ w.1) ∧ 0 ≤ r.count := by
  induction input with
  | nil =>
    intro t r ht h
    simp [uart_gets_go] at h
  | cons b rest ih =>
    intro t r ht h
    rw [uart_gets_go_cons] at h
    by_cases h13 : b % 256 = 13
    · rw [if_pos h13] at h
      obtain rfl := Option.some.inj h
      refine ⟨?_, ht⟩
      intro w hw
      rcases List.mem_singleton.mp hw with rfl
      exact ht
    · rw [if_neg h13] at h
      by_cases hbd : b % 256 = 8 ∨ b % 256 = 127
      · rw [if_pos hbd] at h
        by_cases ht2 : 0 < t
        · rw [if_pos ht2] at h
          obtain ⟨r0, hr0, rfl⟩ := Option.map_eq_some'.mp h
          obtain ⟨hwr, hcnt⟩ := ih (t - 1) r0 (by omega) hr0
          exact ⟨hwr, hcnt⟩
        · rw [if_neg ht2] at h
          exact ih t r ht h
      · rw [if_neg hbd] at h
        obtain ⟨r0, hr0, rfl⟩ := Option.map_eq_some'.mp h
        obtain ⟨hwr, hcnt⟩ := ih (t + 1) r0 (by omega) hr0
        refine ⟨?_, hcnt⟩
        intro w hw
        rcases List.mem_cons.mp hw with rfl | hw2
        · exact ht
        · exact hwr w hw2

/-- C10: throughout `uart_gets` the write cursor never moves below the
buffer start — every buffer store, including the final null terminator,
lands at offset ≥ 0, and the returned count is never negative. -/
theorem c10_cursor_never_below_start (input : List Nat) (r : GetsResult)
    (h : uart_gets input = some r) :
    (∀ w ∈ r.writes, 0 ≤ w.1) ∧ 0 ≤ r.count :=
  uart_gets_go_nonneg input 0 r (le_refl 0) h

/-- Witness for C10: a leading backspace (ignored by the guard), then `A`
and the carriage return. -/
theorem c10_cursor_never_below_start_witness :
    (∀ w ∈ (⟨[(0, 65), (1, 0)], 1, [65, 13, 10], []⟩ : GetsResult).writes, 0 ≤ w.1) ∧
    0 ≤ (⟨[(0, 65), (1, 0)], 1, [65, 13, 10], []⟩ : GetsResult).count :=
  c10_cursor_never_below_start [8, 65, 13]
    ⟨[(0, 65), (1, 0)], 1, [65, 13, 10], []⟩ (by decide)
